import Mathlib

/-!
A shallow embedding of the CacheGrid storage core:
`src/cachegrid/core/storage.py` (StorageItem, the LRU and LFU eviction
policies, AdvancedStorage) and `src/cachegrid/core/engine.py` (CacheItem,
LRUCache, CacheEngine).

Modelling conventions:
* Wall-clock time (`time.time()`) is an explicit rational argument `now`
  threaded through every operation that reads the clock in the source.
* A Python dict is an association list in insertion order: `d[k] = v`
  updates the binding in place or appends a fresh one (`setKV`);
  `del d[k]` / `d.pop(k, None)` filters the key out (`eraseKV`), which on
  the unique-key lists produced by dict semantics removes the one binding.
* `heapq` is modelled by its documented contract: the heap is a list kept
  sorted in the tuple order, `heappush` is ordered insertion, `heappop`
  takes the head.
* Python's unbounded signed ints that are ever decremented are `Int`
  (`total_memory_bytes`, `current_size`); counters that only grow are `Nat`.
* `AdvancedStorage.set` contains a `while` loop that genuinely diverges on
  some states (a stale eviction victim is a no-op to remove, yet counts as
  a successful eviction, so the loop repeats the same state forever).  The
  loop is therefore run on explicit fuel, with `none` denoting divergence;
  the chosen fuel `access_order.length + 2` is exhausted exactly when every
  remaining iteration repeats forever, since each non-final iteration
  either shrinks `access_order` or leaves the loop state unchanged.
-/

namespace CacheGrid

abbrev Key := String
abbrev Value := String
abbrev Time := ℚ

/-- `d.get(k)` / `d[k]` / `k in d` on a Python dict modelled as an
association list. -/
def lookupKV {α : Type} : List (Key × α) → Key → Option α
  | [], _ => none
  | (k', v) :: rest, k => if k' = k then some v else lookupKV rest k

/-- `d[k] = v`: update the binding in place, or append a fresh one. -/
def setKV {α : Type} : List (Key × α) → Key → α → List (Key × α)
  | [], k, v => [(k, v)]
  | (k', v') :: rest, k, v =>
      if k' = k then (k, v) :: rest else (k', v') :: setKV rest k v

/-- `del d[k]` / `d.pop(k, None)`: drop the binding of `k`. -/
def eraseKV {α : Type} : List (Key × α) → Key → List (Key × α)
  | [], _ => []
  | (k', v) :: rest, k =>
      if k' = k then eraseKV rest k else (k', v) :: eraseKV rest k

/-- Keys of an association list, in order. -/
def keysOf {α : Type} (l : List (Key × α)) : List Key :=
  l.map Prod.fst

/-! ### `StorageItem` (storage.py lines 17-60) -/

/-- `StorageItem._estimate_size`: byte length of the key plus byte length
of the value's string rendering plus a 200-byte overhead estimate.  The
opaque payload is modelled as the string `str(value)` renders it to. -/
def estimateSize (key : Key) (value : Value) : Nat :=
  key.utf8ByteSize + value.utf8ByteSize + 200

/-- The `StorageItem` dataclass after `__post_init__` has run. -/
structure StorageItem where
  key : Key
  value : Value
  created_at : Time
  ttl : Option Time
  access_count : Nat
  last_accessed : Time
  size_bytes : Nat
  tags : List String
deriving DecidableEq

/-- How `AdvancedStorage.set` constructs a `StorageItem`: `__post_init__`
fills `last_accessed := created_at` and `size_bytes := _estimate_size()`. -/
def mkStorageItem (key : Key) (value : Value) (created_at : Time)
    (ttl : Option Time) (tags : List String) : StorageItem :=
  { key := key, value := value, created_at := created_at, ttl := ttl,
    access_count := 0, last_accessed := created_at,
    size_bytes := estimateSize key value, tags := tags }

/-- `StorageItem.is_expired`: no TTL means never expired, otherwise
expired iff `time.time() > created_at + ttl` (strict). -/
def StorageItem.is_expired (item : StorageItem) (now : Time) : Bool :=
  match item.ttl with
  | none => false
  | some t => decide (now > item.created_at + t)

/-! ### `LRUEvictionPolicy` (storage.py lines 85-107)

`access_order` is an `OrderedDict` whose values are all `True`; only the
key order matters, so it is modelled as the list of keys in order. -/

structure LRUEvictionPolicy where
  access_order : List Key
deriving DecidableEq

/-- `on_access`: `move_to_end(key)`.  In the source, being called with an
untracked key would raise `KeyError`; the storage core only calls it for
keys present in storage, and every stored key is tracked along every run,
so the untracked branch below is never exercised by reachable states. -/
def LRUEvictionPolicy.on_access (p : LRUEvictionPolicy) (k : Key) :
    LRUEvictionPolicy :=
  if k ∈ p.access_order then ⟨p.access_order.erase k ++ [k]⟩ else p

/-- `on_insert`: `access_order[key] = True` — appends a fresh key, leaves
an already-tracked key where it is. -/
def LRUEvictionPolicy.on_insert (p : LRUEvictionPolicy) (k : Key) :
    LRUEvictionPolicy :=
  if k ∈ p.access_order then p else ⟨p.access_order ++ [k]⟩

/-- `on_remove`: `access_order.pop(key, None)`. -/
def LRUEvictionPolicy.on_remove (p : LRUEvictionPolicy) (k : Key) :
    LRUEvictionPolicy :=
  ⟨p.access_order.erase k⟩

/-- `select_victim`: the first (least recently used) tracked key, if any. -/
def LRUEvictionPolicy.select_victim (p : LRUEvictionPolicy) : Option Key :=
  p.access_order.head?

/-! ### `AdvancedStorage` (storage.py lines 183-358), specialised to the
default `LRUEvictionPolicy`. -/

structure AdvancedStorage where
  max_size : Nat
  max_memory_bytes : Nat
  storage : List (Key × StorageItem)
  tag_index : List (String × List Key)
  eviction_policy : LRUEvictionPolicy
  total_memory_bytes : Int
  access_count : Nat
  hit_count : Nat
  miss_count : Nat
  eviction_count : Nat
deriving DecidableEq

/-- `AdvancedStorage.__init__` (`max_memory_bytes = max_memory_mb * 1024 * 1024`). -/
def mkAdvancedStorage (max_size : Nat) (max_memory_mb : Nat) : AdvancedStorage :=
  { max_size := max_size, max_memory_bytes := max_memory_mb * 1024 * 1024,
    storage := [], tag_index := [], eviction_policy := ⟨[]⟩,
    total_memory_bytes := 0, access_count := 0, hit_count := 0,
    miss_count := 0, eviction_count := 0 }

/-- One step of the tag-index cleanup loop in `_remove_item`: discard the
key from the tag's bucket and delete the bucket if it became empty.  A
missing bucket is materialised empty by the `defaultdict`, discarded from,
and deleted again — a net no-op, as modelled. -/
def removeTag (k : Key) (ti : List (String × List Key)) (tag : String) :
    List (String × List Key) :=
  let bucket := ((lookupKV ti tag).getD []).erase k
  if bucket = [] then eraseKV ti tag else setKV ti tag bucket

/-- `AdvancedStorage._remove_item`: no-op when the key is absent, otherwise
unindex the tags, decrement the byte accounting, delete the entry and
notify the policy. -/
def AdvancedStorage._remove_item (st : AdvancedStorage) (k : Key) :
    AdvancedStorage :=
  match lookupKV st.storage k with
  | none => st
  | some item =>
      { st with
        tag_index := item.tags.foldl (removeTag k) st.tag_index
        total_memory_bytes := st.total_memory_bytes - (item.size_bytes : Int)
        storage := eraseKV st.storage k
        eviction_policy := st.eviction_policy.on_remove k }

/-- `AdvancedStorage._evict_one`.  Note the Python truthiness test
`if victim_key:` — the empty-string key is falsy, so a policy naming `""`
is treated as having named no victim.  The eviction counter is incremented
whenever a (truthy) victim is named, whether or not the victim was present
in storage (`_remove_item` is a no-op for absent keys). -/
def AdvancedStorage._evict_one (st : AdvancedStorage) :
    AdvancedStorage × Bool :=
  match st.eviction_policy.select_victim with
  | none => (st, false)
  | some k =>
      if k = "" then (st, false)
      else ({ st._remove_item k with eviction_count := st.eviction_count + 1 },
            true)

/-- The `while` loop of `AdvancedStorage.set`, on fuel (`none` = the loop
never exits, which the source genuinely does on some states).  Each
iteration re-checks `len(storage) >= max_size or total_memory_bytes +
item.size_bytes > max_memory_bytes` and either evicts one victim, gives up
(`set` returns `False` with the partial state), or falls out of the loop. -/
def evictLoop : Nat → AdvancedStorage → Nat → Option (AdvancedStorage × Bool)
  | 0, _, _ => none
  | fuel + 1, st, itemSize =>
      if st.storage.length ≥ st.max_size ∨
          st.total_memory_bytes + (itemSize : Int) > (st.max_memory_bytes : Int) then
        if (st._evict_one).2 then evictLoop fuel (st._evict_one).1 itemSize
        else some ((st._evict_one).1, false)
      else
        some (st, true)

/-- One step of the tag-index update loop at the end of `set`:
`tag_index[tag].add(key)` on a `defaultdict(set)`. -/
def addTag (k : Key) (ti : List (String × List Key)) (tag : String) :
    List (String × List Key) :=
  let bucket := (lookupKV ti tag).getD []
  setKV ti tag (if k ∈ bucket then bucket else bucket ++ [k])

/-- The tail of `AdvancedStorage.set` after the eviction loop exits
normally: install the entry, update the accounting and tag index and
notify the policy. -/
def installItem (st2 : AdvancedStorage) (k : Key) (item : StorageItem) :
    AdvancedStorage :=
  { st2 with
    storage := setKV st2.storage k item
    total_memory_bytes := st2.total_memory_bytes + (item.size_bytes : Int)
    tag_index := item.tags.foldl (addTag k) st2.tag_index
    eviction_policy := st2.eviction_policy.on_insert k }

/-- `AdvancedStorage.set` (storage.py lines 242-281): build the new item at
the current time, remove any old entry under the key, loop evicting until
the bounds admit the new item (refusing if the policy cannot name a
victim), then install the item, update the accounting and the tag index
and notify the policy. -/
def AdvancedStorage.set (st : AdvancedStorage) (now : Time) (k : Key)
    (v : Value) (ttl : Option Time) (tags : List String) :
    Option (AdvancedStorage × Bool) :=
  let item := mkStorageItem k v now ttl tags
  let st1 := if (lookupKV st.storage k).isSome then st._remove_item k else st
  match evictLoop (st1.eviction_policy.access_order.length + 2) st1 item.size_bytes with
  | none => none
  | some (st2, false) => some (st2, false)
  | some (st2, true) => some (installItem st2 k item, true)

/-- `AdvancedStorage.get` (storage.py lines 215-240): count the access;
miss on an absent key; lazily expire and miss on an expired key; otherwise
refresh the access metadata, notify the policy and count a hit. -/
def AdvancedStorage.get (st : AdvancedStorage) (now : Time) (k : Key) :
    AdvancedStorage × Option Value :=
  let st0 := { st with access_count := st.access_count + 1 }
  match lookupKV st0.storage k with
  | none => ({ st0 with miss_count := st0.miss_count + 1 }, none)
  | some item =>
      if item.is_expired now then
        ({ st0._remove_item k with miss_count := st0.miss_count + 1 }, none)
      else
        let item' := { item with last_accessed := now,
                                 access_count := item.access_count + 1 }
        ({ st0 with storage := setKV st0.storage k item'
                    eviction_policy := st0.eviction_policy.on_access k
                    hit_count := st0.hit_count + 1 },
         some item.value)

/-- `AdvancedStorage.delete`. -/
def AdvancedStorage.delete (st : AdvancedStorage) (k : Key) :
    AdvancedStorage × Bool :=
  if (lookupKV st.storage k).isSome then (st._remove_item k, true)
  else (st, false)

/-- `AdvancedStorage.clear`: empties storage, tag index and byte
accounting and returns the old entry count.  The eviction policy is left
untouched by the source. -/
def AdvancedStorage.clear (st : AdvancedStorage) : AdvancedStorage × Nat :=
  ({ st with storage := [], tag_index := [], total_memory_bytes := 0 },
   st.storage.length)

/-- The stats snapshot returned by `AdvancedStorage.get_stats`.  The
source's `hit_ratio` field is called `hitRate` here. -/
structure StorageStats where
  current_size : Nat
  max_size : Nat
  memory_usage_bytes : Int
  max_memory_bytes : Nat
  access_count : Nat
  hit_count : Nat
  miss_count : Nat
  hitRate : ℚ
  eviction_count : Nat
  tag_count : Nat
deriving DecidableEq

/-- `AdvancedStorage.get_stats` (storage.py lines 300-318):
`hit_ratio = hit_count / access_count if access_count > 0 else 0`. -/
def AdvancedStorage.get_stats (st : AdvancedStorage) : StorageStats :=
  { current_size := st.storage.length, max_size := st.max_size,
    memory_usage_bytes := st.total_memory_bytes,
    max_memory_bytes := st.max_memory_bytes,
    access_count := st.access_count, hit_count := st.hit_count,
    miss_count := st.miss_count,
    hitRate := if st.access_count > 0
               then (st.hit_count : ℚ) / (st.access_count : ℚ) else 0,
    eviction_count := st.eviction_count, tag_count := st.tag_index.length }

/-! ### `LFUEvictionPolicy` (storage.py lines 109-146)

`frequency_heap` is a `heapq` min-heap of `(frequency, counter, key)`
tuples, modelled by the heap contract as a list sorted in the tuple's
lexicographic order; `heappush` is ordered insertion and `heappop` takes
the head. -/

abbrev LFUEntry := Nat × Nat × Key

/-- Lexicographic order on `(frequency, counter, key)` tuples, as Python
compares them in the heap. -/
def entryLE (a b : LFUEntry) : Prop :=
  a.1 < b.1 ∨ (a.1 = b.1 ∧ (a.2.1 < b.2.1 ∨ (a.2.1 = b.2.1 ∧ a.2.2 ≤ b.2.2)))

instance : DecidableRel entryLE := fun a b => by
  unfold entryLE; infer_instance

instance : IsTotal LFUEntry entryLE where
  total a b := by
    unfold entryLE
    rcases Nat.lt_trichotomy a.1 b.1 with h | h | h
    · exact Or.inl (Or.inl h)
    · rcases Nat.lt_trichotomy a.2.1 b.2.1 with h2 | h2 | h2
      · exact Or.inl (Or.inr ⟨h, Or.inl h2⟩)
      · rcases le_total a.2.2 b.2.2 with h3 | h3
        · exact Or.inl (Or.inr ⟨h, Or.inr ⟨h2, h3⟩⟩)
        · exact Or.inr (Or.inr ⟨h.symm, Or.inr ⟨h2.symm, h3⟩⟩)
      · exact Or.inr (Or.inr ⟨h.symm, Or.inl h2⟩)
    · exact Or.inr (Or.inl h)

instance : IsTrans LFUEntry entryLE where
  trans a b c hab hbc := by
    unfold entryLE at *
    rcases hab with h1 | ⟨e1, h1⟩ <;> rcases hbc with h2 | ⟨e2, h2⟩
    · exact Or.inl (h1.trans h2)
    · exact Or.inl (lt_of_lt_of_le h1 (le_of_eq e2))
    · exact Or.inl (lt_of_le_of_lt (le_of_eq e1) h2)
    · refine Or.inr ⟨e1.trans e2, ?_⟩
      rcases h1 with t1 | ⟨et1, k1⟩ <;> rcases h2 with t2 | ⟨et2, k2⟩
      · exact Or.inl (t1.trans t2)
      · exact Or.inl (lt_of_lt_of_le t1 (le_of_eq et2))
      · exact Or.inl (lt_of_le_of_lt (le_of_eq et1) t2)
      · exact Or.inr ⟨et1.trans et2, k1.trans k2⟩

structure LFUEvictionPolicy where
  frequency_heap : List LFUEntry
  key_to_freq : List (Key × Nat)
  counter : Nat
deriving DecidableEq

/-- `LFUEvictionPolicy.__init__`. -/
def LFUEvictionPolicy.empty : LFUEvictionPolicy := ⟨[], [], 0⟩

/-- `on_access`: bump the frequency (a missing key counts as frequency 0)
and push the new `(freq, counter, key)` entry, leaving the old heap entry
stale. -/
def LFUEvictionPolicy.on_access (p : LFUEvictionPolicy) (k : Key) :
    LFUEvictionPolicy :=
  let new_freq := (lookupKV p.key_to_freq k).getD 0 + 1
  { frequency_heap :=
      List.orderedInsert entryLE (new_freq, p.counter, k) p.frequency_heap,
    key_to_freq := setKV p.key_to_freq k new_freq,
    counter := p.counter + 1 }

/-- `on_insert`: frequency 1 for the key, push `(1, counter, key)`. -/
def LFUEvictionPolicy.on_insert (p : LFUEvictionPolicy) (k : Key) :
    LFUEvictionPolicy :=
  { frequency_heap :=
      List.orderedInsert entryLE (1, p.counter, k) p.frequency_heap,
    key_to_freq := setKV p.key_to_freq k 1,
    counter := p.counter + 1 }

/-- `on_remove`: `key_to_freq.pop(key, None)`; heap entries stay stale. -/
def LFUEvictionPolicy.on_remove (p : LFUEvictionPolicy) (k : Key) :
    LFUEvictionPolicy :=
  { p with key_to_freq := eraseKV p.key_to_freq k }

/-- The `while self.frequency_heap` loop of `select_victim`: pop entries
until one whose recorded frequency still matches `key_to_freq[key]` turns
up; also returns the heap left behind by the pops. -/
def selectLoop (ktf : List (Key × Nat)) :
    List LFUEntry → Option Key × List LFUEntry
  | [] => (none, [])
  | (freq, _, k) :: rest =>
      if lookupKV ktf k = some freq then (some k, rest)
      else selectLoop ktf rest

/-- `select_victim`, returning the chosen key (if any) together with the
mutated policy state (the popped entries are gone from the heap). -/
def LFUEvictionPolicy.select_victim (p : LFUEvictionPolicy) :
    Option Key × LFUEvictionPolicy :=
  let r := selectLoop p.key_to_freq p.frequency_heap
  (r.1, { p with frequency_heap := r.2 })

/-- A policy-level operation, following the discipline with which
`AdvancedStorage` drives its policy: `select_victim` is always followed by
removal of the named victim (`_evict_one` → `_remove_item` → `on_remove`). -/
inductive LFUOp where
  | ins (k : Key)
  | acc (k : Key)
  | rem (k : Key)
  | evict
deriving DecidableEq

def applyLFUOp (p : LFUEvictionPolicy) : LFUOp → LFUEvictionPolicy
  | .ins k => p.on_insert k
  | .acc k => p.on_access k
  | .rem k => p.on_remove k
  | .evict =>
      let r := p.select_victim
      match r.1 with
      | some k => r.2.on_remove k
      | none => r.2

def runLFU (p : LFUEvictionPolicy) : List LFUOp → LFUEvictionPolicy
  | [] => p
  | op :: rest => runLFU (applyLFUOp p op) rest

/-! ### `CacheItem`, `LRUCache` and `CacheEngine` (engine.py) -/

structure CacheItem where
  value : Value
  created_at : Time
  ttl : Option Time
  access_count : Nat
  last_accessed : Time
deriving DecidableEq

/-- The `CacheStats` dataclass of engine.py (the derived properties are
not fields). -/
structure CacheStats where
  hits : Nat
  misses : Nat
  sets : Nat
  deletes : Nat
  evictions : Nat
  expired_items : Nat
  current_size : Int
  max_size : Nat
  memory_usage_bytes : Nat
deriving DecidableEq

structure LRUCache where
  max_size : Nat
  cache : List (Key × CacheItem)
  stats : CacheStats
deriving DecidableEq

def mkLRUCache (max_size : Nat) : LRUCache :=
  { max_size := max_size, cache := [],
    stats := { hits := 0, misses := 0, sets := 0, deletes := 0,
               evictions := 0, expired_items := 0, current_size := 0,
               max_size := max_size, memory_usage_bytes := 0 } }

/-- `LRUCache._update_memory_usage`: key bytes + value bytes + 100 per
entry. -/
def memUsage (cache : List (Key × CacheItem)) : Nat :=
  cache.foldl (fun acc p => acc + (p.1.utf8ByteSize + p.2.value.utf8ByteSize + 100)) 0

/-- `LRUCache._evict_lru`: drop the first (least recently used) entry if
the cache is non-empty. -/
def LRUCache._evict_lru (c : LRUCache) : LRUCache :=
  match c.cache with
  | [] => c
  | _ :: rest =>
      { c with
        cache := rest
        stats := { c.stats with
                   evictions := c.stats.evictions + 1
                   current_size := c.stats.current_size - 1 } }

/-- `LRUCache.set` (engine.py lines 143-173): replace in place and move to
the end for an existing key; for a new key evict the LRU entry when at
capacity, then append.  Always returns `True`. -/
def LRUCache.set (c : LRUCache) (now : Time) (k : Key) (v : Value)
    (ttl : Option Time) : LRUCache × Bool :=
  let item : CacheItem :=
    { value := v, created_at := now, ttl := ttl, access_count := 0,
      last_accessed := now }
  let c1 :=
    if (lookupKV c.cache k).isSome then
      { c with cache := eraseKV c.cache k ++ [(k, item)] }
    else
      let c0 := if c.cache.length ≥ c.max_size then c._evict_lru else c
      { c0 with
        cache := c0.cache ++ [(k, item)]
        stats := { c0.stats with current_size := c0.stats.current_size + 1 } }
  ({ c1 with
     stats := { c1.stats with
                sets := c1.stats.sets + 1
                memory_usage_bytes := memUsage c1.cache } }, true)

/-- The slice of `CacheEngine` that `set` consults: the wrapped cache and
the `_running` flag.  A call before `start()` raises `RuntimeError`. -/
structure CacheEngine where
  cache : LRUCache
  running : Bool
deriving DecidableEq

/-- `CacheEngine.set` (engine.py lines 319-323). -/
def CacheEngine.set (e : CacheEngine) (now : Time) (k : Key) (v : Value)
    (ttl : Option Time) : Except String (CacheEngine × Bool) :=
  if e.running then
    let r := e.cache.set now k v ttl
    .ok ({ e with cache := r.1 }, r.2)
  else
    .error "Cache engine not started"

/-! ### Runs of public operations on `AdvancedStorage` -/

/-- A public storage-core operation, with the wall-clock time at which it
runs where the source reads the clock. -/
inductive Op where
  | get (now : Time) (k : Key)
  | set (now : Time) (k : Key) (v : Value) (ttl : Option Time) (tags : List String)
  | del (k : Key)
  | clear
deriving DecidableEq

/-- Apply one operation; `none` when `set` diverges. -/
def applyOp (st : AdvancedStorage) : Op → Option AdvancedStorage
  | .get now k => some (st.get now k).1
  | .set now k v ttl tags => (st.set now k v ttl tags).map Prod.fst
  | .del k => some (st.delete k).1
  | .clear => some (st.clear).1

/-- Run a list of operations from a state. -/
def runOps (st : AdvancedStorage) : List Op → Option AdvancedStorage
  | [] => some st
  | op :: rest =>
      match applyOp st op with
      | none => none
      | some st' => runOps st' rest

/-! ### Derived notions used by the theorems -/

/-- Total of the per-entry `size_bytes` over the stored entries. -/
def sumSizes (l : List (Key × StorageItem)) : Int :=
  (l.map fun p => (p.2.size_bytes : Int)).sum

/-- Number of lookup (`get`) calls in a run. -/
def countGets : List Op → Nat
  | [] => 0
  | Op.get _ _ :: rest => countGets rest + 1
  | _ :: rest => countGets rest

/-- Every key the LFU policy tracks has a live heap entry carrying its
current frequency. -/
def trackedHasEntry (p : LFUEvictionPolicy) : Prop :=
  ∀ k f, lookupKV p.key_to_freq k = some f → ∃ t, (f, t, k) ∈ p.frequency_heap

/-- Well-formedness of an LFU policy state: the heap is sorted (the heap
contract) and every tracked key has a live entry. -/
def LFUWF (p : LFUEvictionPolicy) : Prop :=
  p.frequency_heap.Sorted entryLE ∧ trackedHasEntry p

/-! ### Concrete states used by witnesses and counterexamples -/

/-- C1 witness: one entry with TTL 1 written at time 0. -/
def stC1 : AdvancedStorage :=
  (((mkAdvancedStorage 10 1).set 0 "k" "v" (some 1) []).getD
    (mkAdvancedStorage 10 1, false)).1

def itemC1 : StorageItem := mkStorageItem "k" "v" 0 (some 1) []

/-- C2 witness: a successful insert into a fresh 2-entry, 1 MB store. -/
def setC2res : Option (AdvancedStorage × Bool) :=
  (mkAdvancedStorage 2 1).set 0 "a" "x" none []

def stC2 : AdvancedStorage := (setC2res.getD (mkAdvancedStorage 2 1, false)).1

/-- C3 counterexample: a 1 MB store holding one small entry. -/
def stC3 : AdvancedStorage :=
  (((mkAdvancedStorage 10 1).set 0 "a" "" none []).getD
    (mkAdvancedStorage 10 1, false)).1

/-- C3 counterexample: a value whose entry alone (1048577 estimated bytes)
exceeds the 1048576-byte capacity. -/
def bigValC3 : Value := String.mk (List.replicate 1048376 'x')

/-- C4 counterexample: a store whose byte capacity is zero, so every
insert is refused. -/
def stC4a : AdvancedStorage :=
  (((mkAdvancedStorage 10 0).set 0 "k" "v1" none []).getD
    (mkAdvancedStorage 10 0, false)).1

def stC4b : AdvancedStorage :=
  ((stC4a.set 1 "k" "v2" none []).getD (stC4a, false)).1

/-- C4 witness: a state holding the single entry `set 0 "k" "v1"` writes. -/
def stC4w : AdvancedStorage :=
  (((mkAdvancedStorage 10 1).set 0 "k" "v1" none []).getD
    (mkAdvancedStorage 10 1, false)).1

/-- C5 witness run: a hit, a miss and an insert. -/
def opsC5 : List Op :=
  [Op.set 0 "k" "v" none [], Op.get 1 "k", Op.get 2 "absent"]

def stC5 : AdvancedStorage :=
  (runOps (mkAdvancedStorage 10 1) opsC5).getD (mkAdvancedStorage 10 1)

/-- C6 witness run: two inserts and an access. -/
def opsC6 : List LFUOp := [LFUOp.ins "a", LFUOp.ins "b", LFUOp.acc "b"]

def pC6 : LFUEvictionPolicy := runLFU LFUEvictionPolicy.empty opsC6

/-- C7: the failing run — one insert, then `clear`. -/
def stC7 : AdvancedStorage :=
  (runOps (mkAdvancedStorage 10 100) [Op.set 0 "a" "v" none [], Op.clear]).getD
    (mkAdvancedStorage 10 100)

/-- C8 counterexample: the same post-`clear` state, whose policy still
tracks the vanished key `"a"`. -/
def stC8 : AdvancedStorage :=
  (runOps (mkAdvancedStorage 10 100) [Op.set 0 "a" "v" none [], Op.clear]).getD
    (mkAdvancedStorage 10 100)

/-- C8 witness: a store whose policy names the present key `"a"`. -/
def stC8w : AdvancedStorage :=
  (((mkAdvancedStorage 10 100).set 0 "a" "v" none []).getD
    (mkAdvancedStorage 10 100, false)).1

/-- C9: the core accepts an empty key with a non-positive TTL. -/
def setC9res : Option (AdvancedStorage × Bool) :=
  (mkAdvancedStorage 10 100).set 0 "" "v" (some (-1)) []

def stC9 : AdvancedStorage := (setC9res.getD (mkAdvancedStorage 10 100, false)).1

/-- C9 witness item: written at time 0 with TTL -1. -/
def itemC9 : StorageItem := mkStorageItem "" "v" 0 (some (-1)) []

/-- C10 witness: a started engine over a fresh 5-entry cache. -/
def engC10 : CacheEngine := { cache := mkLRUCache 5, running := true }

/-! ## Association-list lemmas -/

theorem lookupKV_eraseKV_self {α : Type} (l : List (Key × α)) (k : Key) :
    lookupKV (eraseKV l k) k = none := by
  induction l with
  | nil => rfl
  | cons p rest ih =>
      obtain ⟨k', v⟩ := p
      by_cases h : k' = k
      · simpa [eraseKV, h] using ih
      · simpa [eraseKV, lookupKV, h] using ih

theorem lookupKV_eraseKV_ne {α : Type} (l : List (Key × α)) {k k' : Key}
    (h : k' ≠ k) : lookupKV (eraseKV l k) k' = lookupKV l k' := by
  induction l with
  | nil => rfl
  | cons p rest ih =>
      obtain ⟨k₀, v⟩ := p
      by_cases h0 : k₀ = k
      · subst h0
        have he : eraseKV ((k₀, v) :: rest) k₀ = eraseKV rest k₀ := by
          simp [eraseKV]
        rw [he, ih]
        simp [lookupKV, Ne.symm h]
      · simp only [eraseKV, if_neg h0]
        by_cases h1 : k₀ = k'
        · simp [lookupKV, h1]
        · simp [lookupKV, h1, ih]

theorem eraseKV_of_not_mem {α : Type} {l : List (Key × α)} {k : Key}
    (h : k ∉ keysOf l) : eraseKV l k = l := by
  induction l with
  | nil => rfl
  | cons p rest ih =>
      obtain ⟨k', v⟩ := p
      simp only [keysOf, List.map_cons, List.mem_cons] at h
      push_neg at h
      have hne : k' ≠ k := fun he => h.1 he.symm
      simp [eraseKV, hne, ih (by simpa [keysOf] using h.2)]

theorem lookupKV_setKV_self {α : Type} (l : List (Key × α)) (k : Key) (v : α) :
    lookupKV (setKV l k v) k = some v := by
  induction l with
  | nil => simp [setKV, lookupKV]
  | cons p rest ih =>
      obtain ⟨k', v'⟩ := p
      by_cases h : k' = k
      · simp [setKV, lookupKV, h]
      · simp [setKV, lookupKV, h, ih]

theorem lookupKV_setKV_ne {α : Type} (l : List (Key × α)) {k k' : Key} (v : α)
    (h : k' ≠ k) : lookupKV (setKV l k v) k' = lookupKV l k' := by
  induction l with
  | nil => simp [setKV, lookupKV, Ne.symm h]
  | cons p rest ih =>
      obtain ⟨k₀, v₀⟩ := p
      by_cases h0 : k₀ = k
      · subst h0
        have he : setKV ((k₀, v₀) :: rest) k₀ v = (k₀, v) :: rest := by
          simp [setKV]
        rw [he]
        simp [lookupKV, Ne.symm h]
      · simp only [setKV, if_neg h0]
        by_cases h1 : k₀ = k'
        · simp [lookupKV, h1]
        · simp [lookupKV, h1, ih]

theorem lookupKV_isSome_iff {α : Type} (l : List (Key × α)) (k : Key) :
    (lookupKV l k).isSome ↔ k ∈ keysOf l := by
  induction l with
  | nil => simp [lookupKV, keysOf]
  | cons p rest ih =>
      obtain ⟨k', v⟩ := p
      simp only [keysOf, List.map_cons, List.mem_cons] at ih ⊢
      by_cases h : k' = k
      · subst h
        simp [lookupKV]
      · simp only [lookupKV, if_neg h]
        rw [ih]
        constructor
        · exact fun hm => Or.inr hm
        · rintro (he | hm)
          · exact absurd he.symm h
          · exact hm

theorem length_eraseKV_le {α : Type} (l : List (Key × α)) (k : Key) :
    (eraseKV l k).length ≤ l.length := by
  induction l with
  | nil => simp [eraseKV]
  | cons p rest ih =>
      obtain ⟨k', v⟩ := p
      simp only [eraseKV, List.length_cons]
      split
      · omega
      · simp only [List.length_cons]
        omega

theorem length_setKV_le {α : Type} (l : List (Key × α)) (k : Key) (v : α) :
    (setKV l k v).length ≤ l.length + 1 := by
  induction l with
  | nil => simp [setKV]
  | cons p rest ih =>
      obtain ⟨k', v'⟩ := p
      simp only [setKV, List.length_cons]
      split
      · simp
      · simp only [List.length_cons]
        omega

theorem length_setKV_present {α : Type} {l : List (Key × α)} {k : Key} (v : α)
    (h : (lookupKV l k).isSome) : (setKV l k v).length = l.length := by
  induction l with
  | nil => simp [lookupKV] at h
  | cons p rest ih =>
      obtain ⟨k', v'⟩ := p
      by_cases h0 : k' = k
      · simp [setKV, h0]
      · simp only [lookupKV, if_neg h0] at h
        simp [setKV, h0, ih h]

theorem length_setKV_absent {α : Type} {l : List (Key × α)} {k : Key} (v : α)
    (h : lookupKV l k = none) : (setKV l k v).length = l.length + 1 := by
  induction l with
  | nil => simp [setKV]
  | cons p rest ih =>
      obtain ⟨k', v'⟩ := p
      by_cases h0 : k' = k
      · simp [lookupKV, h0] at h
      · simp only [lookupKV, if_neg h0] at h
        simp [setKV, h0, ih h]

theorem length_eraseKV_present {α : Type} {l : List (Key × α)} {k : Key}
    (hnd : (keysOf l).Nodup) (h : (lookupKV l k).isSome) :
    (eraseKV l k).length + 1 = l.length := by
  induction l with
  | nil => simp [lookupKV] at h
  | cons p rest ih =>
      obtain ⟨k', v⟩ := p
      simp only [keysOf, List.map_cons, List.nodup_cons] at hnd
      by_cases h0 : k' = k
      · subst h0
        have hnm : k' ∉ keysOf rest := by simpa [keysOf] using hnd.1
        simp [eraseKV, eraseKV_of_not_mem hnm]
      · simp only [lookupKV, if_neg h0] at h
        simp only [eraseKV, if_neg h0, List.length_cons]
        rw [← ih (by simpa [keysOf] using hnd.2) h]

theorem keysOf_eraseKV {α : Type} {l : List (Key × α)} {k : Key}
    (hnd : (keysOf l).Nodup) : keysOf (eraseKV l k) = (keysOf l).erase k := by
  induction l with
  | nil => rfl
  | cons p rest ih =>
      obtain ⟨k', v⟩ := p
      simp only [keysOf, List.map_cons, List.nodup_cons] at hnd ⊢
      by_cases h0 : k' = k
      · subst h0
        have hnm : k' ∉ keysOf rest := by simpa [keysOf] using hnd.1
        rw [List.erase_cons_head]
        have he : eraseKV ((k', v) :: rest) k' = eraseKV rest k' := by
          simp [eraseKV]
        rw [he, eraseKV_of_not_mem hnm]
      · rw [List.erase_cons_tail (by simp [h0])]
        simp only [eraseKV, if_neg h0, keysOf, List.map_cons]
        have := ih (by simpa [keysOf] using hnd.2)
        simp only [keysOf] at this
        rw [this]

theorem nodup_keysOf_eraseKV {α : Type} {l : List (Key × α)} {k : Key}
    (hnd : (keysOf l).Nodup) : (keysOf (eraseKV l k)).Nodup := by
  rw [keysOf_eraseKV hnd]
  exact hnd.erase k

theorem sumSizes_nonneg (l : List (Key × StorageItem)) : 0 ≤ sumSizes l := by
  induction l with
  | nil => simp [sumSizes]
  | cons p rest ih =>
      simp only [sumSizes, List.map_cons, List.sum_cons] at ih ⊢
      positivity

theorem sumSizes_eraseKV {l : List (Key × StorageItem)} {k : Key}
    {it : StorageItem} (hnd : (keysOf l).Nodup)
    (h : lookupKV l k = some it) :
    sumSizes (eraseKV l k) = sumSizes l - (it.size_bytes : Int) := by
  induction l with
  | nil => simp [lookupKV] at h
  | cons p rest ih =>
      obtain ⟨k', v⟩ := p
      simp only [keysOf, List.map_cons, List.nodup_cons] at hnd
      by_cases h0 : k' = k
      · subst h0
        simp [lookupKV] at h
        subst h
        have hnm : k' ∉ keysOf rest := by simpa [keysOf] using hnd.1
        have he : eraseKV ((k', v) :: rest) k' = eraseKV rest k' := by
          simp [eraseKV]
        rw [he, eraseKV_of_not_mem hnm]
        simp only [sumSizes, List.map_cons, List.sum_cons]
        omega
      · simp only [lookupKV, if_neg h0] at h
        simp only [eraseKV, if_neg h0, sumSizes, List.map_cons, List.sum_cons]
        have := ih (by simpa [keysOf] using hnd.2) h
        simp only [sumSizes] at this
        omega

/-! ## `_remove_item` facts -/

theorem remove_item_absent {st : AdvancedStorage} {k : Key}
    (h : lookupKV st.storage k = none) : st._remove_item k = st := by
  unfold AdvancedStorage._remove_item
  rw [h]

theorem remove_item_present (st : AdvancedStorage) (k : Key)
    (it : StorageItem) (h : lookupKV st.storage k = some it) :
    (st._remove_item k).storage = eraseKV st.storage k ∧
    (st._remove_item k).total_memory_bytes
      = st.total_memory_bytes - (it.size_bytes : Int) ∧
    (st._remove_item k).eviction_policy = st.eviction_policy.on_remove k := by
  unfold AdvancedStorage._remove_item
  rw [h]
  exact ⟨rfl, rfl, rfl⟩

theorem remove_item_fields (st : AdvancedStorage) (k : Key) :
    (st._remove_item k).max_size = st.max_size ∧
    (st._remove_item k).max_memory_bytes = st.max_memory_bytes ∧
    (st._remove_item k).access_count = st.access_count ∧
    (st._remove_item k).hit_count = st.hit_count ∧
    (st._remove_item k).miss_count = st.miss_count ∧
    (st._remove_item k).eviction_count = st.eviction_count := by
  unfold AdvancedStorage._remove_item
  cases h : lookupKV st.storage k with
  | none => simp
  | some it => simp

/-! ## C1 -/

/-- C1: for every key stored with TTL τ at time `t`, a `get` issued at any
time ≥ t + τ + ε (ε > 0) returns a miss, never the stale value — whether
or not the background expirer has run (the statement holds for every state
with the entry still present) — and the expired entry is removed from
storage during that very `get`, with a miss recorded. -/
theorem C1_lazy_expiry_authoritative (st : AdvancedStorage) (k : Key)
    (item : StorageItem) (t τ ε now : Time)
    (hmem : lookupKV st.storage k = some item)
    (hc : item.created_at = t) (httl : item.ttl = some τ)
    (hε : 0 < ε) (hnow : t + τ + ε ≤ now) :
    (st.get now k).2 = none ∧
    lookupKV (st.get now k).1.storage k = none ∧
    (st.get now k).1.miss_count = st.miss_count + 1 := by
  have hexp : item.is_expired now = true := by
    unfold StorageItem.is_expired
    rw [httl]
    rw [decide_eq_true_iff]
    rw [hc]
    linarith
  have hrm := remove_item_present
    { st with access_count := st.access_count + 1 } k item hmem
  unfold AdvancedStorage.get
  simp only [hmem, hexp, if_true]
  refine ⟨trivial, ?_, trivial⟩
  rw [hrm.1]
  exact lookupKV_eraseKV_self _ _

/-- C1 witness: TTL 1 written at time 0, read at time 3 = 0 + 1 + 2 with
ε = 2. -/
theorem C1_lazy_expiry_witness :
    lookupKV stC1.storage "k" = some itemC1 ∧
    itemC1.created_at = 0 ∧ itemC1.ttl = some 1 ∧
    (0 : Time) < 2 ∧ (0 : Time) + 1 + 2 ≤ 3 ∧
    ((stC1.get 3 "k").2 = none ∧
     lookupKV (stC1.get 3 "k").1.storage "k" = none ∧
     (stC1.get 3 "k").1.miss_count = stC1.miss_count + 1) :=
  ⟨by decide, by decide, by decide, by norm_num, by norm_num,
   C1_lazy_expiry_authoritative stC1 "k" itemC1 0 1 2 3 (by decide) (by decide)
     (by decide) (by norm_num) (by norm_num)⟩

/-! ## C2 -/

theorem remove_item_decrease (st : AdvancedStorage) (k : Key) :
    (st._remove_item k).storage.length ≤ st.storage.length ∧
    (st._remove_item k).total_memory_bytes ≤ st.total_memory_bytes ∧
    (st._remove_item k).max_size = st.max_size ∧
    (st._remove_item k).max_memory_bytes = st.max_memory_bytes := by
  unfold AdvancedStorage._remove_item
  cases h : lookupKV st.storage k with
  | none => simp
  | some it =>
      refine ⟨?_, ?_, rfl, rfl⟩
      · simpa using length_eraseKV_le st.storage k
      · show st.total_memory_bytes - (it.size_bytes : Int) ≤ st.total_memory_bytes
        omega

theorem evict_one_decrease (st : AdvancedStorage) :
    (st._evict_one).1.storage.length ≤ st.storage.length ∧
    (st._evict_one).1.total_memory_bytes ≤ st.total_memory_bytes ∧
    (st._evict_one).1.max_size = st.max_size ∧
    (st._evict_one).1.max_memory_bytes = st.max_memory_bytes := by
  unfold AdvancedStorage._evict_one
  cases h : st.eviction_policy.select_victim with
  | none => simp
  | some k =>
      by_cases hk : k = ""
      · simp [hk]
      · simp only [if_neg hk]
        simpa using remove_item_decrease st k

theorem evictLoop_true_bounds :
    ∀ (fuel : Nat) (st : AdvancedStorage) (size : Nat) (st' : AdvancedStorage),
      evictLoop fuel st size = some (st', true) →
      st'.storage.length < st'.max_size ∧
      st'.total_memory_bytes + (size : Int) ≤ (st'.max_memory_bytes : Int) := by
  intro fuel
  induction fuel with
  | zero =>
      intro st size st' h
      simp [evictLoop] at h
  | succ n ih =>
      intro st size st' h
      unfold evictLoop at h
      split at h
      · split at h
        · exact ih _ _ _ h
        · simp at h
      · next hc =>
          push_neg at hc
          simp only [Option.some.injEq, Prod.mk.injEq] at h
          obtain ⟨rfl, -⟩ := h
          exact ⟨by omega, by omega⟩

theorem evictLoop_false_decrease :
    ∀ (fuel : Nat) (st : AdvancedStorage) (size : Nat) (st' : AdvancedStorage),
      evictLoop fuel st size = some (st', false) →
      st'.storage.length ≤ st.storage.length ∧
      st'.total_memory_bytes ≤ st.total_memory_bytes ∧
      st'.max_size = st.max_size ∧
      st'.max_memory_bytes = st.max_memory_bytes := by
  intro fuel
  induction fuel with
  | zero =>
      intro st size st' h
      simp [evictLoop] at h
  | succ n ih =>
      intro st size st' h
      unfold evictLoop at h
      split at h
      · split at h
        · have h1 := ih _ _ _ h
          have h2 := evict_one_decrease st
          exact ⟨h1.1.trans h2.1, h1.2.1.trans h2.2.1,
                 h1.2.2.1.trans h2.2.2.1, h1.2.2.2.trans h2.2.2.2⟩
        · simp only [Option.some.injEq, Prod.mk.injEq] at h
          obtain ⟨rfl, -⟩ := h
          exact evict_one_decrease st
      · simp at h

theorem set_success_bounds {st : AdvancedStorage} {now : Time} {k : Key}
    {v : Value} {ttl : Option Time} {tags : List String} {st' : AdvancedStorage}
    (h : st.set now k v ttl tags = some (st', true)) :
    st'.storage.length ≤ st'.max_size ∧
    st'.total_memory_bytes ≤ (st'.max_memory_bytes : Int) := by
  unfold AdvancedStorage.set at h
  set item := mkStorageItem k v now ttl tags with hitem
  set st1 := if (lookupKV st.storage k).isSome then st._remove_item k else st
    with hst1
  dsimp only at h
  cases hE : evictLoop (st1.eviction_policy.access_order.length + 2) st1
      item.size_bytes with
  | none =>
      rw [hE] at h
      simp at h
  | some r =>
      obtain ⟨st2, b⟩ := r
      rw [hE] at h
      cases b with
      | false => simp at h
      | true =>
          simp only [Option.some.injEq, Prod.mk.injEq] at h
          obtain ⟨rfl, -⟩ := h
          have hb := evictLoop_true_bounds _ _ _ _ hE
          have hlen := length_setKV_le st2.storage k item
          unfold installItem
          constructor
          · show (setKV st2.storage k item).length ≤ st2.max_size
            omega
          · show st2.total_memory_bytes + (item.size_bytes : Int)
              ≤ (st2.max_memory_bytes : Int)
            exact hb.2

theorem set_false_decrease {st : AdvancedStorage} {now : Time} {k : Key}
    {v : Value} {ttl : Option Time} {tags : List String} {st' : AdvancedStorage}
    (h : st.set now k v ttl tags = some (st', false)) :
    st'.storage.length ≤ st.storage.length ∧
    st'.total_memory_bytes ≤ st.total_memory_bytes ∧
    st'.max_size = st.max_size ∧
    st'.max_memory_bytes = st.max_memory_bytes := by
  unfold AdvancedStorage.set at h
  set item := mkStorageItem k v now ttl tags with hitem
  set st1 := if (lookupKV st.storage k).isSome then st._remove_item k else st
    with hst1
  dsimp only at h
  have hd1 : st1.storage.length ≤ st.storage.length ∧
      st1.total_memory_bytes ≤ st.total_memory_bytes ∧
      st1.max_size = st.max_size ∧
      st1.max_memory_bytes = st.max_memory_bytes := by
    rw [hst1]
    by_cases hin : (lookupKV st.storage k).isSome
    · simp only [hin, if_true]
      exact remove_item_decrease st k
    · simp only [hin, if_false]
      exact ⟨le_refl _, le_refl _, rfl, rfl⟩
  cases hE : evictLoop (st1.eviction_policy.access_order.length + 2) st1
      item.size_bytes with
  | none =>
      rw [hE] at h
      simp at h
  | some r =>
      obtain ⟨st2, b⟩ := r
      rw [hE] at h
      cases b with
      | true => simp at h
      | false =>
          simp only [Option.some.injEq, Prod.mk.injEq] at h
          obtain ⟨rfl, -⟩ := h
          have hL := evictLoop_false_decrease _ _ _ _ hE
          exact ⟨hL.1.trans hd1.1, hL.2.1.trans hd1.2.1,
                 hL.2.2.1.trans hd1.2.2.1, hL.2.2.2.trans hd1.2.2.2⟩

theorem get_bounds_decrease (st : AdvancedStorage) (now : Time) (k : Key) :
    (st.get now k).1.storage.length ≤ st.storage.length ∧
    (st.get now k).1.total_memory_bytes ≤ st.total_memory_bytes ∧
    (st.get now k).1.max_size = st.max_size ∧
    (st.get now k).1.max_memory_bytes = st.max_memory_bytes := by
  unfold AdvancedStorage.get
  dsimp only
  cases h : lookupKV st.storage k with
  | none => simp
  | some item =>
      by_cases hexp : item.is_expired now = true
      · simp only [hexp, if_true]
        simpa using remove_item_decrease
          { st with access_count := st.access_count + 1 } k
      · simp only [hexp, if_false]
        have hp : (lookupKV st.storage k).isSome := by rw [h]; rfl
        refine ⟨?_, le_refl _, rfl, rfl⟩
        exact Nat.le_of_eq (length_setKV_present _ hp)

theorem runOps_bounds :
    ∀ (ops : List Op) (st st' : AdvancedStorage),
      st.storage.length ≤ st.max_size →
      st.total_memory_bytes ≤ (st.max_memory_bytes : Int) →
      runOps st ops = some st' →
      st'.storage.length ≤ st'.max_size ∧
      st'.total_memory_bytes ≤ (st'.max_memory_bytes : Int) := by
  intro ops
  induction ops with
  | nil =>
      intro st st' h1 h2 h
      simp only [runOps, Option.some.injEq] at h
      subst h
      exact ⟨h1, h2⟩
  | cons op rest ih =>
      intro st st' h1 h2 h
      unfold runOps at h
      cases hA : applyOp st op with
      | none => rw [hA] at h; simp at h
      | some st1 =>
          rw [hA] at h
          have hmid : st1.storage.length ≤ st1.max_size ∧
              st1.total_memory_bytes ≤ (st1.max_memory_bytes : Int) := by
            cases op with
            | get tnow kk =>
                have hd := get_bounds_decrease st tnow kk
                simp only [applyOp, Option.some.injEq] at hA
                subst hA
                rw [hd.2.2.1, hd.2.2.2]
                exact ⟨hd.1.trans h1, hd.2.1.trans h2⟩
            | set tnow kk vv tl tg =>
                simp only [applyOp] at hA
                cases hS : st.set tnow kk vv tl tg with
                | none =>
                    rw [hS] at hA
                    simp at hA
                | some r =>
                    obtain ⟨stx, bx⟩ := r
                    rw [hS] at hA
                    simp only [Option.map_some', Option.some.injEq] at hA
                    subst hA
                    cases bx with
                | true => exact set_success_bounds hS
                | false =>
                    have hL := set_false_decrease hS
                    constructor
                    · rw [hL.2.2.1]
                      exact hL.1.trans h1
                    · rw [hL.2.2.2]
                      exact hL.2.1.trans h2
            | del kk =>
                simp only [applyOp, Option.some.injEq] at hA
                subst hA
                unfold AdvancedStorage.delete
                by_cases hin : (lookupKV st.storage kk).isSome
                · simp only [hin, if_true]
                  have hR := remove_item_decrease st kk
                  rw [hR.2.2.1, hR.2.2.2]
                  exact ⟨hR.1.trans h1, hR.2.1.trans h2⟩
                · simp only [hin, if_false]
                  exact ⟨h1, h2⟩
            | clear =>
                simp only [applyOp, Option.some.injEq] at hA
                subst hA
                unfold AdvancedStorage.clear
                constructor
                · simp
                · simp
          exact ih _ _ hmid.1 hmid.2 h

/-- C2: whenever `set` returns success the resulting state satisfies
`entryCount ≤ maxEntries` and `totalBytes ≤ maxBytes` — from any starting
state — and along any run of public operations from a fresh store both
bounds hold at every quiescent point. -/
theorem C2_capacity_bounds :
    (∀ (st : AdvancedStorage) (now : Time) (k : Key) (v : Value)
        (ttl : Option Time) (tags : List String) (st' : AdvancedStorage),
        st.set now k v ttl tags = some (st', true) →
        st'.storage.length ≤ st'.max_size ∧
        st'.total_memory_bytes ≤ (st'.max_memory_bytes : Int)) ∧
    (∀ (maxS maxMB : Nat) (ops : List Op) (st : AdvancedStorage),
        runOps (mkAdvancedStorage maxS maxMB) ops = some st →
        st.storage.length ≤ st.max_size ∧
        st.total_memory_bytes ≤ (st.max_memory_bytes : Int)) := by
  constructor
  · intro st now k v ttl tags st' h
    exact set_success_bounds h
  · intro maxS maxMB ops st h
    refine runOps_bounds ops (mkAdvancedStorage maxS maxMB) st ?_ ?_ h
    · simp [mkAdvancedStorage]
    · simp [mkAdvancedStorage]

/-- C2 witness: a concrete successful insert lands within both bounds. -/
theorem C2_capacity_witness :
    setC2res = some (stC2, true) ∧
    stC2.storage.length ≤ stC2.max_size ∧
    stC2.total_memory_bytes ≤ (stC2.max_memory_bytes : Int) :=
  ⟨by decide,
   (C2_capacity_bounds.1 (mkAdvancedStorage 2 1) 0 "a" "x" none [] stC2
      (by decide)).1,
   (C2_capacity_bounds.1 (mkAdvancedStorage 2 1) 0 "a" "x" none [] stC2
      (by decide)).2⟩

/-! ## C5 -/

theorem remove_item_access (st : AdvancedStorage) (k : Key) :
    (st._remove_item k).access_count = st.access_count := by
  unfold AdvancedStorage._remove_item
  cases h : lookupKV st.storage k with
  | none => simp
  | some it => simp

theorem remove_item_hit (st : AdvancedStorage) (k : Key) :
    (st._remove_item k).hit_count = st.hit_count := by
  unfold AdvancedStorage._remove_item
  cases h : lookupKV st.storage k with
  | none => simp
  | some it => simp

theorem remove_item_miss (st : AdvancedStorage) (k : Key) :
    (st._remove_item k).miss_count = st.miss_count := by
  unfold AdvancedStorage._remove_item
  cases h : lookupKV st.storage k with
  | none => simp
  | some it => simp

theorem get_counters (st : AdvancedStorage) (now : Time) (k : Key) :
    (st.get now k).1.access_count = st.access_count + 1 ∧
    (st.get now k).1.hit_count + (st.get now k).1.miss_count
      = st.hit_count + st.miss_count + 1 := by
  unfold AdvancedStorage.get
  dsimp only
  cases h : lookupKV st.storage k with
  | none => exact ⟨rfl, by dsimp only; omega⟩
  | some item =>
      dsimp only
      by_cases hexp : item.is_expired now = true
      · rw [if_pos hexp]
        constructor
        · exact remove_item_access _ k
        · rw [show ((({ st with access_count := st.access_count + 1 }
              : AdvancedStorage)._remove_item k), (none : Option Value)).1.hit_count
              = st.hit_count from remove_item_hit _ k]
          dsimp only
          omega
      · rw [if_neg hexp]
        exact ⟨rfl, by dsimp only; omega⟩

theorem evict_one_counters (st : AdvancedStorage) :
    (st._evict_one).1.access_count = st.access_count ∧
    (st._evict_one).1.hit_count = st.hit_count ∧
    (st._evict_one).1.miss_count = st.miss_count := by
  unfold AdvancedStorage._evict_one
  cases h : st.eviction_policy.select_victim with
  | none => simp
  | some k =>
      by_cases hk : k = ""
      · simp [hk]
      · simp only [if_neg hk]
        exact ⟨remove_item_access _ k, remove_item_hit _ k, remove_item_miss _ k⟩

theorem evictLoop_counters :
    ∀ (fuel : Nat) (st : AdvancedStorage) (size : Nat)
      (r : AdvancedStorage × Bool),
      evictLoop fuel st size = some r →
      r.1.access_count = st.access_count ∧
      r.1.hit_count = st.hit_count ∧
      r.1.miss_count = st.miss_count := by
  intro fuel
  induction fuel with
  | zero =>
      intro st size r h
      simp [evictLoop] at h
  | succ n ih =>
      intro st size r h
      unfold evictLoop at h
      split at h
      · split at h
        · have h1 := ih _ _ _ h
          have h2 := evict_one_counters st
          exact ⟨h1.1.trans h2.1, h1.2.1.trans h2.2.1, h1.2.2.trans h2.2.2⟩
        · simp only [Option.some.injEq] at h
          subst h
          exact evict_one_counters st
      · simp only [Option.some.injEq] at h
        subst h
        exact ⟨rfl, rfl, rfl⟩

theorem set_counters {st : AdvancedStorage} {now : Time} {k : Key} {v : Value}
    {ttl : Option Time} {tags : List String} {r : AdvancedStorage × Bool}
    (h : st.set now k v ttl tags = some r) :
    r.1.access_count = st.access_count ∧
    r.1.hit_count = st.hit_count ∧
    r.1.miss_count = st.miss_count := by
  unfold AdvancedStorage.set at h
  set item := mkStorageItem k v now ttl tags with hitem
  set st1 := if (lookupKV st.storage k).isSome then st._remove_item k else st
    with hst1
  dsimp only at h
  have hd1 : st1.access_count = st.access_count ∧
      st1.hit_count = st.hit_count ∧ st1.miss_count = st.miss_count := by
    rw [hst1]
    by_cases hin : (lookupKV st.storage k).isSome
    · simp only [hin, if_true]
      exact ⟨remove_item_access st k, remove_item_hit st k, remove_item_miss st k⟩
    · simp only [hin, if_false]
      exact ⟨rfl, rfl, rfl⟩
  cases hE : evictLoop (st1.eviction_policy.access_order.length + 2) st1
      item.size_bytes with
  | none =>
      rw [hE] at h
      simp at h
  | some p =>
      obtain ⟨st2, b⟩ := p
      rw [hE] at h
      have hmid := evictLoop_counters _ _ _ _ hE
      cases b with
      | false =>
          simp only [Option.some.injEq] at h
          subst h
          exact ⟨hmid.1.trans hd1.1, hmid.2.1.trans hd1.2.1,
                 hmid.2.2.trans hd1.2.2⟩
      | true =>
          simp only [Option.some.injEq] at h
          subst h
          unfold installItem
          exact ⟨hmid.1.trans hd1.1, hmid.2.1.trans hd1.2.1,
                 hmid.2.2.trans hd1.2.2⟩

theorem runOps_counters :
    ∀ (ops : List Op) (st st' : AdvancedStorage),
      runOps st ops = some st' →
      st'.access_count = st.access_count + countGets ops ∧
      st'.hit_count + st'.miss_count
        = st.hit_count + st.miss_count + countGets ops := by
  intro ops
  induction ops with
  | nil =>
      intro st st' h
      simp only [runOps, Option.some.injEq] at h
      subst h
      simp [countGets]
  | cons op rest ih =>
      intro st st' h
      unfold runOps at h
      cases hA : applyOp st op with
      | none => rw [hA] at h; simp at h
      | some st1 =>
          rw [hA] at h
          have hrest := ih _ _ h
          cases op with
          | get tnow kk =>
              simp only [applyOp, Option.some.injEq] at hA
              subst hA
              have hg := get_counters st tnow kk
              simp only [countGets]
              omega
          | set tnow kk vv tl tg =>
              simp only [applyOp] at hA
              cases hS : st.set tnow kk vv tl tg with
              | none => rw [hS] at hA; simp at hA
              | some p =>
                  rw [hS] at hA
                  simp only [Option.map_some', Option.some.injEq] at hA
                  subst hA
                  have hs := set_counters hS
                  simp only [countGets]
                  omega
          | del kk =>
              have hd : st1.access_count = st.access_count ∧
                  st1.hit_count = st.hit_count ∧
                  st1.miss_count = st.miss_count := by
                simp only [applyOp, Option.some.injEq] at hA
                subst hA
                unfold AdvancedStorage.delete
                by_cases hin : (lookupKV st.storage kk).isSome
                · simp only [hin, if_true]
                  exact ⟨remove_item_access st kk, remove_item_hit st kk,
                         remove_item_miss st kk⟩
                · simp only [hin, if_false]
                  exact ⟨rfl, rfl, rfl⟩
              simp only [countGets]
              omega
          | clear =>
              have hd : st1.access_count = st.access_count ∧
                  st1.hit_count = st.hit_count ∧
                  st1.miss_count = st.miss_count := by
                simp only [applyOp, Option.some.injEq] at hA
                subst hA
                unfold AdvancedStorage.clear
                exact ⟨rfl, rfl, rfl⟩
              simp only [countGets]
              omega

/-- C5: along any run from a fresh store, `hits + misses` equals the
number of lookups attempted, which also equals the recorded access count,
and the stats snapshot's hit ratio is `hits / accesses` with `0` when no
access has happened. -/
theorem C5_stats_accounting :
    ∀ (maxS maxMB : Nat) (ops : List Op) (st : AdvancedStorage),
      runOps (mkAdvancedStorage maxS maxMB) ops = some st →
      st.hit_count + st.miss_count = countGets ops ∧
      st.access_count = countGets ops ∧
      (st.get_stats).hitRate
        = (if st.access_count = 0 then 0
           else (st.hit_count : ℚ) / (st.access_count : ℚ)) := by
  intro maxS maxMB ops st h
  have hc := runOps_counters ops _ _ h
  simp only [mkAdvancedStorage] at hc
  refine ⟨by omega, by omega, ?_⟩
  unfold AdvancedStorage.get_stats
  rcases Nat.eq_zero_or_pos st.access_count with hz | hp
  · simp [hz]
  · rw [if_pos hp, if_neg (by omega : ¬ st.access_count = 0)]

/-- C5 witness: one insert, one hit, one miss — two lookups, one access
each, ratio 1/2. -/
theorem C5_stats_witness :
    runOps (mkAdvancedStorage 10 1) opsC5 = some stC5 ∧
    (stC5.hit_count + stC5.miss_count = countGets opsC5 ∧
     stC5.access_count = countGets opsC5 ∧
     (stC5.get_stats).hitRate
       = (if stC5.access_count = 0 then 0
          else (stC5.hit_count : ℚ) / (stC5.access_count : ℚ))) :=
  ⟨by decide, C5_stats_accounting 10 1 opsC5 stC5 (by decide)⟩

/-! ## C3 -/

theorem utf8ByteSize_replicate (n : Nat) (c : Char) :
    (String.mk (List.replicate n c)).utf8ByteSize = n * c.utf8Size := by
  show String.utf8ByteSize.go (List.replicate n c) = n * c.utf8Size
  induction n with
  | zero =>
      show String.utf8ByteSize.go [] = 0 * c.utf8Size
      rw [Nat.zero_mul]
      rfl
  | succ m ih =>
      rw [List.replicate_succ]
      show String.utf8ByteSize.go (List.replicate m c) + c.utf8Size
        = (m + 1) * c.utf8Size
      rw [ih]
      ring

theorem estimateSize_replicate (k : Key) (n : Nat) (c : Char) :
    estimateSize k (String.mk (List.replicate n c))
      = k.utf8ByteSize + n * c.utf8Size + 200 := by
  unfold estimateSize
  rw [utf8ByteSize_replicate]

theorem evictLoop_oversized_empty (m : Nat) (st : AdvancedStorage) (size : Nat)
    (hord : st.eviction_policy.access_order = [])
    (hPerm : st.eviction_policy.access_order.Perm (keysOf st.storage))
    (hsum : st.total_memory_bytes = sumSizes st.storage)
    (hbig : (st.max_memory_bytes : Int) < (size : Int)) :
    evictLoop (m + 1) st size = some (st, false) ∧
    st.storage = [] ∧ st.total_memory_bytes = 0 := by
  have hkeys : keysOf st.storage = [] := by
    rw [hord] at hPerm
    exact (List.perm_nil.mp hPerm.symm)
  have hstor : st.storage = [] := by
    cases hs : st.storage with
    | nil => rfl
    | cons a l => rw [hs] at hkeys; simp [keysOf] at hkeys
  have htot : st.total_memory_bytes = 0 := by
    rw [hsum, hstor]
    rfl
  have hcond : st.storage.length ≥ st.max_size ∨
      st.total_memory_bytes + (size : Int) > (st.max_memory_bytes : Int) := by
    right
    rw [htot]
    omega
  have hev : st._evict_one = (st, false) := by
    unfold AdvancedStorage._evict_one LRUEvictionPolicy.select_victim
    rw [hord]
    rfl
  refine ⟨?_, hstor, htot⟩
  unfold evictLoop
  rw [if_pos hcond, hev]
  rfl

theorem evictLoop_oversized :
    ∀ (n : Nat) (st : AdvancedStorage) (size : Nat),
      (keysOf st.storage).Nodup →
      st.eviction_policy.access_order.Perm (keysOf st.storage) →
      st.total_memory_bytes = sumSizes st.storage →
      "" ∉ st.eviction_policy.access_order →
      st.eviction_policy.access_order.length ≤ n →
      (st.max_memory_bytes : Int) < (size : Int) →
      ∃ st', evictLoop (n + 1) st size = some (st', false) ∧
        st'.storage = [] ∧ st'.total_memory_bytes = 0 ∧
        st'.max_size = st.max_size ∧
        st'.max_memory_bytes = st.max_memory_bytes := by
  intro n
  induction n with
  | zero =>
      intro st size hnd hPerm hsum hne hlen hbig
      have hord : st.eviction_policy.access_order = [] :=
        List.eq_nil_of_length_eq_zero (Nat.le_zero.mp hlen)
      obtain ⟨he, hs, ht⟩ := evictLoop_oversized_empty 0 st size hord hPerm hsum hbig
      exact ⟨st, he, hs, ht, rfl, rfl⟩
  | succ m ih =>
      intro st size hnd hPerm hsum hne hlen hbig
      cases hord : st.eviction_policy.access_order with
      | nil =>
          obtain ⟨he, hs, ht⟩ :=
            evictLoop_oversized_empty (m + 1) st size hord hPerm hsum hbig
          exact ⟨st, he, hs, ht, rfl, rfl⟩
      | cons h t =>
          have hhne : h ≠ "" := by
            intro hcont
            apply hne
            rw [hord, ← hcont]
            exact List.mem_cons_self _ _
          have hmem : h ∈ keysOf st.storage := by
            have hmo : h ∈ st.eviction_policy.access_order := by
              rw [hord]
              exact List.mem_cons_self _ _
            exact hPerm.mem_iff.mp hmo
          have hsome : (lookupKV st.storage h).isSome :=
            (lookupKV_isSome_iff _ _).mpr hmem
          obtain ⟨it, hit⟩ := Option.isSome_iff_exists.mp hsome
          have hrp := remove_item_present st h it hit
          have hrd := remove_item_decrease st h
          have hnonneg := sumSizes_nonneg st.storage
          have hcond : st.storage.length ≥ st.max_size ∨
              st.total_memory_bytes + (size : Int) > (st.max_memory_bytes : Int) := by
            right
            rw [hsum]
            omega
          have hsel : st.eviction_policy.select_victim = some h := by
            unfold LRUEvictionPolicy.select_victim
            rw [hord]
            rfl
          have hev2 : (st._evict_one).2 = true := by
            unfold AdvancedStorage._evict_one
            rw [hsel]
            dsimp only
            rw [if_neg hhne]
          have hev1 : (st._evict_one).1
              = { st._remove_item h with
                  eviction_count := st.eviction_count + 1 } := by
            unfold AdvancedStorage._evict_one
            rw [hsel]
            dsimp only
            rw [if_neg hhne]
          have h2stor : ({ st._remove_item h with
              eviction_count := st.eviction_count + 1 }
                : AdvancedStorage).storage = eraseKV st.storage h := hrp.1
          have h2ord : ({ st._remove_item h with
              eviction_count := st.eviction_count + 1 }
                : AdvancedStorage).eviction_policy.access_order = t := by
            show (st._remove_item h).eviction_policy.access_order = t
            rw [hrp.2.2]
            show st.eviction_policy.access_order.erase h = t
            rw [hord]
            exact List.erase_cons_head _ _
          have hnd2 : (keysOf ({ st._remove_item h with
              eviction_count := st.eviction_count + 1 }
                : AdvancedStorage).storage).Nodup := by
            rw [h2stor]
            exact nodup_keysOf_eraseKV hnd
          have hPerm2 : ({ st._remove_item h with
              eviction_count := st.eviction_count + 1 }
                : AdvancedStorage).eviction_policy.access_order.Perm
              (keysOf ({ st._remove_item h with
                eviction_count := st.eviction_count + 1 }
                  : AdvancedStorage).storage) := by
            rw [h2ord, h2stor, keysOf_eraseKV hnd]
            have hpe := hPerm.erase h
            rw [hord, List.erase_cons_head] at hpe
            exact hpe
          have hsum2 : ({ st._remove_item h with
              eviction_count := st.eviction_count + 1 }
                : AdvancedStorage).total_memory_bytes
              = sumSizes ({ st._remove_item h with
                  eviction_count := st.eviction_count + 1 }
                    : AdvancedStorage).storage := by
            show (st._remove_item h).total_memory_bytes = _
            rw [hrp.2.1, h2stor, sumSizes_eraseKV hnd hit, hsum]
          have hne2 : "" ∉ ({ st._remove_item h with
              eviction_count := st.eviction_count + 1 }
                : AdvancedStorage).eviction_policy.access_order := by
            rw [h2ord]
            intro hc
            exact hne (by rw [hord]; exact List.mem_cons_of_mem _ hc)
          have hlen2 : ({ st._remove_item h with
              eviction_count := st.eviction_count + 1 }
                : AdvancedStorage).eviction_policy.access_order.length ≤ m := by
            rw [h2ord]
            have hl : st.eviction_policy.access_order.length ≤ m + 1 := hlen
            rw [hord] at hl
            simpa using hl
          have hbig2 : (({ st._remove_item h with
              eviction_count := st.eviction_count + 1 }
                : AdvancedStorage).max_memory_bytes : Int) < (size : Int) := by
            show ((st._remove_item h).max_memory_bytes : Int) < (size : Int)
            rw [hrd.2.2.2]
            exact hbig
          obtain ⟨st', hrun, hs', ht', hm1, hm2⟩ :=
            ih _ size hnd2 hPerm2 hsum2 hne2 hlen2 hbig2
          refine ⟨st', ?_, hs', ht', ?_, ?_⟩
          · unfold evictLoop
            rw [if_pos hcond, hev2, if_pos rfl, hev1]
            exact hrun
          · rw [hm1]
            show (st._remove_item h).max_size = st.max_size
            exact hrd.2.2.1
          · rw [hm2]
            show (st._remove_item h).max_memory_bytes = st.max_memory_bytes
            exact hrd.2.2.2

theorem set_oversized_refused (st : AdvancedStorage) (now : Time) (k : Key)
    (v : Value) (ttl : Option Time) (tags : List String)
    (hnd : (keysOf st.storage).Nodup)
    (hPerm : st.eviction_policy.access_order.Perm (keysOf st.storage))
    (hsum : st.total_memory_bytes = sumSizes st.storage)
    (hne : "" ∉ st.eviction_policy.access_order)
    (hfresh : lookupKV st.storage k = none)
    (hbig : (st.max_memory_bytes : Int) < (estimateSize k v : Int)) :
    ∃ st', st.set now k v ttl tags = some (st', false) ∧
      st'.storage = [] ∧ st'.total_memory_bytes = 0 := by
  have hns : ¬ ((lookupKV st.storage k).isSome = true) := by
    rw [hfresh]
    exact Bool.false_ne_true
  have hsz : (mkStorageItem k v now ttl tags).size_bytes = estimateSize k v :=
    rfl
  obtain ⟨st', hrun, hs', ht', -, -⟩ :=
    evictLoop_oversized (st.eviction_policy.access_order.length + 1) st
      (estimateSize k v) hnd hPerm hsum hne (by omega) hbig
  refine ⟨st', ?_, hs', ht'⟩
  unfold AdvancedStorage.set
  dsimp only
  rw [if_neg hns, hsz]
  rw [show st.eviction_policy.access_order.length + 2
      = (st.eviction_policy.access_order.length + 1) + 1 from rfl]
  rw [hrun]

/-- C3 amended: when the eviction policy returns no victim, `set` is
refused and the new entry is not installed — but the refusal is not
state-preserving: every entry evicted while trying to make space stays
removed.  For a fresh key whose entry alone exceeds `maxBytes` (on a
well-formed store tracking no empty-string key), `set` evicts every entry,
then is refused: it returns `False`, the key is absent, and storage is
left empty with zero bytes accounted — not unchanged. -/
theorem C3_oversized_insert (st : AdvancedStorage) (now : Time) (k : Key)
    (v : Value) (ttl : Option Time) (tags : List String)
    (hnd : (keysOf st.storage).Nodup)
    (hPerm : st.eviction_policy.access_order.Perm (keysOf st.storage))
    (hsum : st.total_memory_bytes = sumSizes st.storage)
    (hne : "" ∉ st.eviction_policy.access_order)
    (hfresh : lookupKV st.storage k = none)
    (hbig : (st.max_memory_bytes : Int) < (estimateSize k v : Int)) :
    ∃ st', st.set now k v ttl tags = some (st', false) ∧
      st'.storage = [] ∧ st'.total_memory_bytes = 0 ∧
      lookupKV st'.storage k = none := by
  obtain ⟨st', h1, h2, h3⟩ :=
    set_oversized_refused st now k v ttl tags hnd hPerm hsum hne hfresh hbig
  refine ⟨st', h1, h2, h3, ?_⟩
  rw [h2]
  rfl

/-- C3 as stated is false on the code: inserting the fresh oversized key
`"b"` into a store holding `"a"` is refused, but far from leaving the
state unchanged, it first evicts `"a"` — storage ends empty. -/
theorem C3_refusal_not_stateless :
    lookupKV stC3.storage "a" = some (mkStorageItem "a" "" 0 none []) ∧
    stC3.storage ≠ [] ∧
    ∃ st', stC3.set 1 "b" bigValC3 none [] = some (st', false) ∧
      st'.storage = [] ∧ st'.total_memory_bytes = 0 := by
  have hsize : estimateSize "b" bigValC3 = 1048577 :=
    Eq.trans
      (Eq.trans
        (congrArg (fun s => estimateSize "b" s)
          (rfl : bigValC3 = String.mk (List.replicate 1048376 'x')))
        (estimateSize_replicate "b" 1048376 'x'))
      (by decide : "b".utf8ByteSize + 1048376 * 'x'.utf8Size + 200 = 1048577)
  refine ⟨by decide, by decide, ?_⟩
  apply set_oversized_refused
  · decide
  · decide
  · decide
  · decide
  · decide
  · rw [hsize]
    have hmb : stC3.max_memory_bytes = 1048576 := by decide
    rw [hmb]
    norm_num

/-- C3 witness for the amended theorem: inserting any fresh key into an
empty zero-capacity store is refused, leaving the empty state. -/
theorem C3_oversized_witness :
    (keysOf (mkAdvancedStorage 10 0).storage).Nodup ∧
    (mkAdvancedStorage 10 0).eviction_policy.access_order.Perm
      (keysOf (mkAdvancedStorage 10 0).storage) ∧
    (mkAdvancedStorage 10 0).total_memory_bytes
      = sumSizes (mkAdvancedStorage 10 0).storage ∧
    "" ∉ (mkAdvancedStorage 10 0).eviction_policy.access_order ∧
    lookupKV (mkAdvancedStorage 10 0).storage "a" = none ∧
    ((mkAdvancedStorage 10 0).max_memory_bytes : Int)
      < (estimateSize "a" "v" : Int) ∧
    ∃ st', (mkAdvancedStorage 10 0).set 0 "a" "v" none [] = some (st', false) ∧
      st'.storage = [] ∧ st'.total_memory_bytes = 0 ∧
      lookupKV st'.storage "a" = none :=
  ⟨by decide, by decide, by decide, by decide, by decide, by decide,
   C3_oversized_insert (mkAdvancedStorage 10 0) 0 "a" "v" none []
     (by decide) (by decide) (by decide) (by decide) (by decide) (by decide)⟩

/-! ## C4 -/

/-- C4 as stated is false on the code: the claim quantifies over every key
and pair of values, but a `set` can be refused, and then `get` misses
instead of returning `v2`.  Concretely, with byte capacity 0 both writes
are refused and the final `get` returns `none`, not `v2`. -/
theorem C4_replacement_counterexample :
    (mkAdvancedStorage 10 0).set 0 "k" "v1" none [] = some (stC4a, false) ∧
    stC4a.set 1 "k" "v2" none [] = some (stC4b, false) ∧
    (stC4b.get 2 "k").2 = none ∧ (stC4b.get 2 "k").2 ≠ some "v2" :=
  ⟨by decide, by decide, by decide, by decide⟩

/-- C4 amended: the replacement law holds provided the second `set`
succeeds without having to evict — here guaranteed by: the key is present
(so this is a replacement), `entryCount ≤ maxEntries` held before the
call, and the state after swapping the old entry for the new one fits in
the byte bound.  Then `set(k, v2)` returns success, a later `get(k)`
returns `v2`, and the entry count is unchanged (net delta 0). -/
theorem C4_replacement (st : AdvancedStorage) (now now' : Time) (k : Key)
    (v2 : Value) (old : StorageItem)
    (hnd : (keysOf st.storage).Nodup)
    (hold : lookupKV st.storage k = some old)
    (hcount : st.storage.length ≤ st.max_size)
    (hfit : st.total_memory_bytes - (old.size_bytes : Int)
        + (estimateSize k v2 : Int) ≤ (st.max_memory_bytes : Int)) :
    st.set now k v2 none []
      = some (installItem (st._remove_item k) k (mkStorageItem k v2 now none []),
              true) ∧
    ((installItem (st._remove_item k) k (mkStorageItem k v2 now none [])).get
        now' k).2 = some v2 ∧
    (installItem (st._remove_item k) k
        (mkStorageItem k v2 now none [])).storage.length
      = st.storage.length := by
  have hsome : (lookupKV st.storage k).isSome := by rw [hold]; rfl
  have hrp := remove_item_present st k old hold
  have hrd := remove_item_decrease st k
  have hfresh : lookupKV (st._remove_item k).storage k = none := by
    rw [hrp.1]
    exact lookupKV_eraseKV_self _ _
  have hlen1 : (st._remove_item k).storage.length + 1 = st.storage.length := by
    rw [hrp.1]
    exact length_eraseKV_present hnd hsome
  have hkeyge : 1 ≤ st.storage.length := by
    cases hs : st.storage with
    | nil => rw [hs] at hold; simp [lookupKV] at hold
    | cons a l => simp
  have hsz : (mkStorageItem k v2 now none []).size_bytes = estimateSize k v2 :=
    rfl
  have hcond : ¬((st._remove_item k).storage.length ≥ (st._remove_item k).max_size ∨
      (st._remove_item k).total_memory_bytes
        + ((mkStorageItem k v2 now none []).size_bytes : Int)
        > ((st._remove_item k).max_memory_bytes : Int)) := by
    push_neg
    constructor
    · rw [hrd.2.2.1]
      omega
    · rw [hrp.2.1, hrd.2.2.2, hsz]
      exact hfit
  have hloop : evictLoop
      ((st._remove_item k).eviction_policy.access_order.length + 2)
      (st._remove_item k) (mkStorageItem k v2 now none []).size_bytes
      = some (st._remove_item k, true) := by
    rw [show (st._remove_item k).eviction_policy.access_order.length + 2
        = ((st._remove_item k).eviction_policy.access_order.length + 1) + 1
      from rfl]
    unfold evictLoop
    rw [if_neg hcond]
  have hget : lookupKV
      (installItem (st._remove_item k) k (mkStorageItem k v2 now none [])).storage
      k = some (mkStorageItem k v2 now none []) := by
    unfold installItem
    exact lookupKV_setKV_self _ _ _
  refine ⟨?_, ?_, ?_⟩
  · unfold AdvancedStorage.set
    dsimp only
    rw [if_pos hsome, hloop]
  · unfold AdvancedStorage.get
    dsimp only
    rw [hget]
    dsimp only
    rw [if_neg (by rw [show (mkStorageItem k v2 now none []).is_expired now'
        = false from rfl]; exact Bool.false_ne_true)]
    rfl
  · unfold installItem
    dsimp only
    rw [length_setKV_absent _ hfresh]
    exact hlen1

/-- C4 witness: replace `"k" := "v1"` by `"v2"` in a 1 MB store; the set
succeeds, `get` returns `"v2"` and the entry count is unchanged. -/
theorem C4_replacement_witness :
    (keysOf stC4w.storage).Nodup ∧
    lookupKV stC4w.storage "k" = some (mkStorageItem "k" "v1" 0 none []) ∧
    stC4w.storage.length ≤ stC4w.max_size ∧
    stC4w.total_memory_bytes
        - ((mkStorageItem "k" "v1" 0 none []).size_bytes : Int)
        + (estimateSize "k" "v2" : Int) ≤ (stC4w.max_memory_bytes : Int) ∧
    (stC4w.set 1 "k" "v2" none []
      = some (installItem (stC4w._remove_item "k") "k"
                (mkStorageItem "k" "v2" 1 none []), true) ∧
     ((installItem (stC4w._remove_item "k") "k"
         (mkStorageItem "k" "v2" 1 none [])).get 2 "k").2 = some "v2" ∧
     (installItem (stC4w._remove_item "k") "k"
         (mkStorageItem "k" "v2" 1 none [])).storage.length
       = stC4w.storage.length) :=
  ⟨by decide, by decide, by decide, by decide,
   C4_replacement stC4w 1 2 "k" "v2" (mkStorageItem "k" "v1" 0 none [])
     (by decide) (by decide) (by decide) (by decide)⟩

/-! ## C6 -/

theorem selectLoop_none_decomp (ktf : List (Key × Nat)) :
    ∀ (heap heap' : List LFUEntry), selectLoop ktf heap = (none, heap') →
      heap' = [] ∧ ∀ e ∈ heap, lookupKV ktf e.2.2 ≠ some e.1 := by
  intro heap
  induction heap with
  | nil =>
      intro heap' h
      simp only [selectLoop, Prod.mk.injEq] at h
      exact ⟨h.2.symm, by simp⟩
  | cons a rest ih =>
      obtain ⟨f, t, k⟩ := a
      intro heap' h
      unfold selectLoop at h
      by_cases hv : lookupKV ktf k = some f
      · rw [if_pos hv] at h
        simp at h
      · rw [if_neg hv] at h
        obtain ⟨h1, h2⟩ := ih heap' h
        refine ⟨h1, ?_⟩
        intro e he
        rcases List.mem_cons.mp he with rfl | hmem
        · exact hv
        · exact h2 e hmem

theorem selectLoop_none_of_all_invalid (ktf : List (Key × Nat)) :
    ∀ (heap : List LFUEntry),
      (∀ e ∈ heap, lookupKV ktf e.2.2 ≠ some e.1) →
      selectLoop ktf heap = (none, []) := by
  intro heap
  induction heap with
  | nil => intro h; rfl
  | cons a rest ih =>
      obtain ⟨f, t, k⟩ := a
      intro h
      unfold selectLoop
      rw [if_neg (h (f, t, k) (List.mem_cons_self _ _))]
      exact ih (fun e he => h e (List.mem_cons_of_mem _ he))

theorem selectLoop_some_decomp (ktf : List (Key × Nat)) :
    ∀ (heap : List LFUEntry) (k : Key) (heap' : List LFUEntry),
      selectLoop ktf heap = (some k, heap') →
      ∃ pre f t, heap = pre ++ (f, t, k) :: heap' ∧
        lookupKV ktf k = some f ∧
        ∀ e ∈ pre, lookupKV ktf e.2.2 ≠ some e.1 := by
  intro heap
  induction heap with
  | nil =>
      intro k heap' h
      simp [selectLoop] at h
  | cons a rest ih =>
      obtain ⟨f0, t0, k0⟩ := a
      intro k heap' h
      unfold selectLoop at h
      by_cases hv : lookupKV ktf k0 = some f0
      · rw [if_pos hv] at h
        simp only [Prod.mk.injEq, Option.some.injEq] at h
        obtain ⟨rfl, rfl⟩ := h
        exact ⟨[], f0, t0, rfl, hv, by simp⟩
      · rw [if_neg hv] at h
        obtain ⟨pre, f, t, heq, hvk, hpre⟩ := ih k heap' h
        refine ⟨(f0, t0, k0) :: pre, f, t, ?_, hvk, ?_⟩
        · rw [List.cons_append, heq]
        · intro e he
          rcases List.mem_cons.mp he with rfl | hmem
          · exact hv
          · exact hpre e hmem

theorem LFUWF_empty : LFUWF LFUEvictionPolicy.empty := by
  constructor
  · exact List.sorted_nil
  · intro k f h
    simp [LFUEvictionPolicy.empty, lookupKV] at h

theorem LFUWF_on_insert (p : LFUEvictionPolicy) (k : Key) (h : LFUWF p) :
    LFUWF (p.on_insert k) := by
  obtain ⟨hs, ht⟩ := h
  constructor
  · exact List.Sorted.orderedInsert _ _ hs
  · intro k' f' h'
    unfold LFUEvictionPolicy.on_insert at h' ⊢
    dsimp only at h' ⊢
    by_cases hk : k' = k
    · subst hk
      rw [lookupKV_setKV_self] at h'
      injection h' with h''
      subst h''
      exact ⟨p.counter, (List.mem_orderedInsert entryLE).mpr (Or.inl rfl)⟩
    · rw [lookupKV_setKV_ne _ _ hk] at h'
      obtain ⟨t, hmem⟩ := ht k' f' h'
      exact ⟨t, (List.mem_orderedInsert entryLE).mpr (Or.inr hmem)⟩

theorem LFUWF_on_access (p : LFUEvictionPolicy) (k : Key) (h : LFUWF p) :
    LFUWF (p.on_access k) := by
  obtain ⟨hs, ht⟩ := h
  constructor
  · exact List.Sorted.orderedInsert _ _ hs
  · intro k' f' h'
    unfold LFUEvictionPolicy.on_access at h' ⊢
    dsimp only at h' ⊢
    by_cases hk : k' = k
    · subst hk
      rw [lookupKV_setKV_self] at h'
      injection h' with h''
      subst h''
      exact ⟨p.counter, (List.mem_orderedInsert entryLE).mpr (Or.inl rfl)⟩
    · rw [lookupKV_setKV_ne _ _ hk] at h'
      obtain ⟨t, hmem⟩ := ht k' f' h'
      exact ⟨t, (List.mem_orderedInsert entryLE).mpr (Or.inr hmem)⟩

theorem LFUWF_on_remove (p : LFUEvictionPolicy) (k : Key) (h : LFUWF p) :
    LFUWF (p.on_remove k) := by
  obtain ⟨hs, ht⟩ := h
  refine ⟨hs, ?_⟩
  intro k' f' h'
  unfold LFUEvictionPolicy.on_remove at h'
  dsimp only at h'
  by_cases hk : k' = k
  · subst hk
    rw [lookupKV_eraseKV_self] at h'
    simp at h'
  · rw [lookupKV_eraseKV_ne _ hk] at h'
    exact ht k' f' h'

theorem LFUWF_evict (p : LFUEvictionPolicy) (h : LFUWF p) :
    LFUWF (applyLFUOp p LFUOp.evict) := by
  obtain ⟨hs, ht⟩ := h
  unfold applyLFUOp LFUEvictionPolicy.select_victim
  dsimp only
  cases hsel : selectLoop p.key_to_freq p.frequency_heap with
  | mk res heap' =>
      cases res with
      | none =>
          obtain ⟨hnil, hinv⟩ := selectLoop_none_decomp _ _ _ hsel
          dsimp only
          constructor
          · show List.Sorted entryLE heap'
            rw [hnil]
            exact List.sorted_nil
          · intro k' f' h'
            obtain ⟨t', hmem'⟩ := ht k' f' h'
            exact absurd h' (hinv (f', t', k') hmem')
      | some k =>
          obtain ⟨pre, f, t, heq, hvk, hpre⟩ := selectLoop_some_decomp _ _ _ _ hsel
          dsimp only
          unfold LFUEvictionPolicy.on_remove
          dsimp only
          constructor
          · show List.Sorted entryLE heap'
            have hsub : List.Sublist heap' p.frequency_heap := by
              rw [heq]
              exact ((List.sublist_cons_self _ _).trans
                (List.sublist_append_right pre _))
            exact List.Pairwise.sublist hsub hs
          · intro k' f' h'
            by_cases hk : k' = k
            · subst hk
              rw [lookupKV_eraseKV_self] at h'
              simp at h'
            · rw [lookupKV_eraseKV_ne _ hk] at h'
              obtain ⟨t', hmem'⟩ := ht k' f' h'
              rw [heq] at hmem'
              rcases List.mem_append.mp hmem' with hin | hin
              · exact absurd h' (hpre (f', t', k') hin)
              · rcases List.mem_cons.mp hin with hhead | htail
                · exact absurd (congrArg (fun e => e.2.2) hhead) hk
                · exact ⟨t', htail⟩

theorem LFUWF_run (ops : List LFUOp) :
    LFUWF (runLFU LFUEvictionPolicy.empty ops) := by
  suffices h : ∀ (ops : List LFUOp) (p : LFUEvictionPolicy),
      LFUWF p → LFUWF (runLFU p ops) from h ops _ LFUWF_empty
  intro ops
  induction ops with
  | nil => intro p h; exact h
  | cons op rest ih =>
      intro p h
      unfold runLFU
      apply ih
      cases op with
      | ins k => exact LFUWF_on_insert p k h
      | acc k => exact LFUWF_on_access p k h
      | rem k => exact LFUWF_on_remove p k h
      | evict => exact LFUWF_evict p h

theorem select_victim_spec (p : LFUEvictionPolicy) (hWF : LFUWF p) :
    ((p.select_victim).1 = none ↔ p.key_to_freq = []) ∧
    (∀ k, (p.select_victim).1 = some k →
      ∃ f t, lookupKV p.key_to_freq k = some f ∧
        (f, t, k) ∈ p.frequency_heap ∧
        ∀ k' f', lookupKV p.key_to_freq k' = some f' →
          f ≤ f' ∧ (f = f' →
            ∃ t', (f', t', k') ∈ p.frequency_heap ∧ t ≤ t')) := by
  obtain ⟨hs, ht⟩ := hWF
  have hfst : (p.select_victim).1
      = (selectLoop p.key_to_freq p.frequency_heap).1 := rfl
  constructor
  · constructor
    · intro hnone
      rw [hfst] at hnone
      cases hktf : p.key_to_freq with
      | nil => rfl
      | cons a tl =>
          obtain ⟨k0, f0⟩ := a
          have hk0 : lookupKV p.key_to_freq k0 = some f0 := by
            rw [hktf]
            simp [lookupKV]
          obtain ⟨t0, hmem0⟩ := ht k0 f0 hk0
          cases hsel : selectLoop p.key_to_freq p.frequency_heap with
          | mk res heap' =>
              rw [hsel] at hnone
              dsimp only at hnone
              subst hnone
              obtain ⟨-, hinv⟩ := selectLoop_none_decomp _ _ _ hsel
              exact absurd hk0 (hinv (f0, t0, k0) hmem0)
    · intro hnil
      rw [hfst]
      rw [selectLoop_none_of_all_invalid p.key_to_freq p.frequency_heap ?_]
      · intro e he
        rw [hnil]
        simp [lookupKV]
  · intro k hk
    rw [hfst] at hk
    cases hsel : selectLoop p.key_to_freq p.frequency_heap with
    | mk res heap' =>
        rw [hsel] at hk
        dsimp only at hk
        subst hk
        obtain ⟨pre, f, t, heq, hvk, hpre⟩ := selectLoop_some_decomp _ _ _ _ hsel
        refine ⟨f, t, hvk, ?_, ?_⟩
        · rw [heq]
          exact List.mem_append.mpr (Or.inr (List.mem_cons_self _ _))
        · intro k' f' hk'
          obtain ⟨t', hmem'⟩ := ht k' f' hk'
          have hmem'2 := hmem'
          rw [heq] at hmem'2
          rcases List.mem_append.mp hmem'2 with hin | hin
          · exact absurd hk' (hpre (f', t', k') hin)
          · rcases List.mem_cons.mp hin with hhead | htail
            · have hkk : k' = k := congrArg (fun e => e.2.2) hhead
              have hff : f' = f := congrArg (fun e => e.1) hhead
              have htt : t' = t := congrArg (fun e => e.2.1) hhead
              subst hkk
              subst hff
              subst htt
              exact ⟨le_refl f', fun _ => ⟨t', hmem', le_refl t'⟩⟩
            · have hsorted : List.Sorted entryLE ((f, t, k) :: heap') := by
                have hsub : List.Sublist ((f, t, k) :: heap')
                    p.frequency_heap := by
                  rw [heq]
                  exact List.sublist_append_right pre _
                exact List.Pairwise.sublist hsub hs
              have hrel : entryLE (f, t, k) (f', t', k') :=
                List.rel_of_sorted_cons hsorted _ htail
              rcases hrel with hlt | ⟨heqf, hinner⟩
              · exact ⟨Nat.le_of_lt hlt,
                  fun heqf => absurd heqf (Nat.ne_of_lt hlt)⟩
              · refine ⟨Nat.le_of_eq heqf, fun _ => ⟨t', hmem', ?_⟩⟩
                rcases hinner with hlt' | ⟨heqt, -⟩
                · exact Nat.le_of_lt hlt'
                · exact Nat.le_of_eq heqt

/-- C6: for every reachable LFU-policy state — reachable through the
discipline with which the storage core drives its policy (`on_insert`,
`on_access`, `on_remove`, and eviction steps in which `select_victim` is
followed by removal of the named victim) — `select_victim` returns `none`
exactly when no key is tracked, and otherwise returns a tracked key whose
frequency is minimal among all tracked keys (stale heap entries whose
recorded frequency no longer matches `key_to_freq` are popped and
skipped), breaking frequency ties by the earlier heap-insertion tick. -/
theorem C6_lfu_select_victim (ops : List LFUOp) (p : LFUEvictionPolicy)
    (hp : runLFU LFUEvictionPolicy.empty ops = p) :
    ((p.select_victim).1 = none ↔ p.key_to_freq = []) ∧
    (∀ k, (p.select_victim).1 = some k →
      ∃ f t, lookupKV p.key_to_freq k = some f ∧
        (f, t, k) ∈ p.frequency_heap ∧
        ∀ k' f', lookupKV p.key_to_freq k' = some f' →
          f ≤ f' ∧ (f = f' →
            ∃ t', (f', t', k') ∈ p.frequency_heap ∧ t ≤ t')) := by
  subst hp
  exact select_victim_spec _ (LFUWF_run ops)

/-- C6 witness: after inserting `"a"`, `"b"` and accessing `"b"`, the
specification instantiates at the resulting concrete policy state (whose
victim is `"a"`, the unique minimum-frequency key). -/
theorem C6_lfu_select_witness :
    runLFU LFUEvictionPolicy.empty opsC6 = pC6 ∧
    (((pC6.select_victim).1 = none ↔ pC6.key_to_freq = []) ∧
     (∀ k, (pC6.select_victim).1 = some k →
       ∃ f t, lookupKV pC6.key_to_freq k = some f ∧
         (f, t, k) ∈ pC6.frequency_heap ∧
         ∀ k' f', lookupKV pC6.key_to_freq k' = some f' →
           f ≤ f' ∧ (f = f' →
             ∃ t', (f', t', k') ∈ pC6.frequency_heap ∧ t ≤ t'))) :=
  ⟨by decide, C6_lfu_select_victim opsC6 pC6 (by decide)⟩

/-! ## C7 -/

/-- C7: refuted by the code — `clear` does not reset the eviction policy.
After `set "a"` then `clear`, storage is empty while the LRU policy still
tracks `"a"`, so the policy references a key absent from storage (and its
`select_victim` names it).  The spec requires `clear` to reset the policy;
the code omits the reset. -/
theorem C7_clear_leaves_policy_stale :
    runOps (mkAdvancedStorage 10 100) [Op.set 0 "a" "v" none [], Op.clear]
      = some stC7 ∧
    stC7.storage = [] ∧
    stC7.eviction_policy.access_order = ["a"] ∧
    stC7.eviction_policy.select_victim = some "a" := by
  refine ⟨by decide, by decide, by decide, by decide⟩

/-! ## C8 -/

/-- C8 as stated is false on the code: after `set "a"; clear()` the LRU
policy still names `"a"` although storage is empty; `_evict_one` does not
re-check presence or pick again — it increments the eviction counter and
reports success while removing nothing. -/
theorem C8_eviction_counter_counterexample :
    stC8.eviction_policy.select_victim = some "a" ∧
    lookupKV stC8.storage "a" = none ∧
    (stC8._evict_one).2 = true ∧
    (stC8._evict_one).1.eviction_count = stC8.eviction_count + 1 ∧
    (stC8._evict_one).1.storage = stC8.storage :=
  ⟨by decide, by decide, by decide, by decide, by decide⟩

/-- C8 amended: the core neither verifies the victim nor picks again.
Whenever the policy names a (truthy) victim, `_evict_one` reports success
and increments the eviction counter unconditionally; the victim is
actually removed exactly when it is still present — removal of an absent
victim is a no-op on storage, yet still counted. -/
theorem C8_evict_one_behaviour (st : AdvancedStorage) (k : Key)
    (hv : st.eviction_policy.select_victim = some k) (hk : k ≠ "") :
    (st._evict_one).2 = true ∧
    (st._evict_one).1.eviction_count = st.eviction_count + 1 ∧
    ((lookupKV st.storage k).isSome →
        lookupKV (st._evict_one).1.storage k = none) ∧
    (lookupKV st.storage k = none → (st._evict_one).1.storage = st.storage) := by
  unfold AdvancedStorage._evict_one
  rw [hv]
  dsimp only
  rw [if_neg hk]
  refine ⟨rfl, rfl, ?_, ?_⟩
  · intro hin
    obtain ⟨it, hit⟩ := Option.isSome_iff_exists.mp hin
    have hrp := remove_item_present st k it hit
    show lookupKV (st._remove_item k).storage k = none
    rw [hrp.1]
    exact lookupKV_eraseKV_self _ _
  · intro habs
    show (st._remove_item k).storage = st.storage
    rw [remove_item_absent habs]

/-- C8 witness: with the victim still present, the eviction both counts
and removes. -/
theorem C8_evict_one_witness :
    stC8w.eviction_policy.select_victim = some "a" ∧ "a" ≠ "" ∧
    ((stC8w._evict_one).2 = true ∧
     (stC8w._evict_one).1.eviction_count = stC8w.eviction_count + 1 ∧
     ((lookupKV stC8w.storage "a").isSome →
         lookupKV (stC8w._evict_one).1.storage "a" = none) ∧
     (lookupKV stC8w.storage "a" = none →
         (stC8w._evict_one).1.storage = stC8w.storage)) :=
  ⟨by decide, by decide,
   C8_evict_one_behaviour stC8w "a" (by decide) (by decide)⟩

/-! ## C9 -/

/-- C9 as stated is false on the code: the core `set` performs no argument
validation.  With an empty key and TTL = -1 it returns success and stores
the entry instead of returning an invalid-argument refusal. -/
theorem C9_core_accepts_invalid_args :
    setC9res = some (stC9, true) ∧
    lookupKV stC9.storage "" = some itemC9 :=
  ⟨by decide, by decide⟩

/-- C9 amended: argument validation (key length ≥ 1, TTL > 0) lives only
in the HTTP adapter's request models, not in the core: core `set` accepts
an empty key and a non-positive TTL and stores the entry (returning
success).  An entry with non-positive TTL is expired at every strictly
later time, so subsequent `get`s miss.  The true half of the claim stands:
core operations never raise for a missing key — `get` records a miss and
returns `none`, `delete` returns `false` with the state unchanged. -/
theorem C9_validation_at_boundary (st : AdvancedStorage) (now : Time)
    (k : Key) (τ : Time) (item : StorageItem)
    (hmiss : lookupKV st.storage k = none)
    (hτ : τ ≤ 0) (hittl : item.ttl = some τ)
    (hlate : item.created_at < now) :
    (st.get now k).2 = none ∧
    (st.get now k).1.miss_count = st.miss_count + 1 ∧
    st.delete k = (st, false) ∧
    item.is_expired now = true ∧
    setC9res = some (stC9, true) := by
  refine ⟨?_, ?_, ?_, ?_, by decide⟩
  · unfold AdvancedStorage.get
    dsimp only
    rw [hmiss]
  · unfold AdvancedStorage.get
    dsimp only
    rw [hmiss]
  · unfold AdvancedStorage.delete
    rw [hmiss]
    rfl
  · unfold StorageItem.is_expired
    rw [hittl]
    rw [decide_eq_true_iff]
    linarith

/-- C9 witness: an empty fresh store, a missing key `"z"`, and an entry
written at time 0 with TTL -1 read at time 1. -/
theorem C9_validation_witness :
    lookupKV (mkAdvancedStorage 10 100).storage "z" = none ∧
    (-1 : Time) ≤ 0 ∧ itemC9.ttl = some (-1) ∧ itemC9.created_at < 1 ∧
    (((mkAdvancedStorage 10 100).get 1 "z").2 = none ∧
     ((mkAdvancedStorage 10 100).get 1 "z").1.miss_count
       = (mkAdvancedStorage 10 100).miss_count + 1 ∧
     (mkAdvancedStorage 10 100).delete "z" = (mkAdvancedStorage 10 100, false) ∧
     itemC9.is_expired 1 = true ∧
     setC9res = some (stC9, true)) :=
  ⟨by decide, by norm_num, by decide, by norm_num [itemC9, mkStorageItem],
   C9_validation_at_boundary (mkAdvancedStorage 10 100) 1 "z" (-1) itemC9
     (by decide) (by norm_num) (by decide) (by norm_num [itemC9, mkStorageItem])⟩

/-! ## C10 -/

/-- C10: the engine-path cache never refuses an insert: `LRUCache.set`
returns `True` for every state, key, value and TTL, and `CacheEngine.set`
on a running engine therefore returns `ok` with success for every input
(the engine path enforces only the entry-count bound and no byte bound). -/
theorem C10_engine_set_always_succeeds :
    (∀ (c : LRUCache) (now : Time) (k : Key) (v : Value) (ttl : Option Time),
        (c.set now k v ttl).2 = true) ∧
    (∀ (e : CacheEngine) (now : Time) (k : Key) (v : Value) (ttl : Option Time),
        e.running = true →
        e.set now k v ttl
          = Except.ok ({ e with cache := (e.cache.set now k v ttl).1 }, true)) := by
  constructor
  · intro c now k v ttl
    rfl
  · intro e now k v ttl hr
    unfold CacheEngine.set
    rw [hr]
    simp only [if_true]
    have hs : (e.cache.set now k v ttl).2 = true := rfl
    rw [hs]

/-- C10 witness: a started engine accepts an arbitrary insert. -/
theorem C10_engine_set_witness :
    engC10.running = true ∧
    engC10.set 0 "k" "v" none
      = Except.ok ({ engC10 with cache := (engC10.cache.set 0 "k" "v" none).1 },
                   true) :=
  ⟨rfl, C10_engine_set_always_succeeds.2 engC10 0 "k" "v" none rfl⟩

end CacheGrid
